import Mathlib

set_option linter.unusedSectionVars false
set_option linter.unusedVariables false

/-!
Verification of the voice-mirror specification against a shallow embedding
of the Rust sources.  Each section embeds one component; the claim theorems
are at the end of the file.
-/

namespace VoiceMirror

/-! ## Ring buffer (src-tauri/src/voice/pipeline.rs, `RingBuffer`)

The Rust struct holds `data: Vec<f32>`, `write_pos`, `read_pos`, `count`,
`capacity`.  The element type is abstracted (samples are only moved, never
computed with); `default` stands for the `0.0` fill value. -/

structure RingBuffer (α : Type) where
  data : List α
  write_pos : Nat
  read_pos : Nat
  count : Nat
  capacity : Nat

variable {α : Type} [Inhabited α]

/-- Embeds `RingBuffer::new(capacity)`: `data = vec![0.0; capacity]`. -/
def RingBuffer.new (α : Type) [Inhabited α] (capacity : Nat) : RingBuffer α :=
  { data := List.replicate capacity default
    write_pos := 0
    read_pos := 0
    count := 0
    capacity := capacity }

/-- One iteration of the `for &sample in samples` loop of `push_slice`:
on overflow advance `read_pos` and decrement `count`, then store at
`write_pos` and bump `write_pos`/`count`. -/
def RingBuffer.pushSample (rb : RingBuffer α) (s : α) : RingBuffer α :=
  let rb1 :=
    if rb.capacity ≤ rb.count then
      { rb with read_pos := (rb.read_pos + 1) % rb.capacity, count := rb.count - 1 }
    else rb
  { rb1 with
    data := rb1.data.set rb1.write_pos s
    write_pos := (rb1.write_pos + 1) % rb1.capacity
    count := rb1.count + 1 }

/-- Embeds `RingBuffer::push_slice` (its Rust return value is always
`samples.len()` and is dropped here). -/
def RingBuffer.push_slice (rb : RingBuffer α) (samples : List α) : RingBuffer α :=
  samples.foldl RingBuffer.pushSample rb

/-- The read loop of `pop_slice`: reads `n` consecutive samples starting at
`read_pos`, advancing the cursor and decrementing `count`. -/
def RingBuffer.popLoop (rb : RingBuffer α) : Nat → List α × RingBuffer α
  | 0 => ([], rb)
  | n + 1 =>
    let v := rb.data.getD rb.read_pos default
    let rb1 : RingBuffer α :=
      { rb with read_pos := (rb.read_pos + 1) % rb.capacity, count := rb.count - 1 }
    let r := rb1.popLoop n
    (v :: r.1, r.2)

/-- Embeds `RingBuffer::pop_slice`: overwrites the first
`min buf.length count` entries of `buf` with queued samples. -/
def RingBuffer.pop_slice (rb : RingBuffer α) (buf : List α) : List α × RingBuffer α :=
  let toRead := min buf.length rb.count
  let r := rb.popLoop toRead
  (r.1 ++ buf.drop toRead, r.2)

/-- Embeds `RingBuffer::drain_all`: empty buffer yields `[]`, otherwise a
fresh zero vector of length `count` is filled via `pop_slice`. -/
def RingBuffer.drain_all (rb : RingBuffer α) : List α × RingBuffer α :=
  if rb.count = 0 then ([], rb)
  else rb.pop_slice (List.replicate rb.count default)

/-- Structural invariant maintained by the ring-buffer operations. -/
structure RingBuffer.Inv (rb : RingBuffer α) : Prop where
  cap_pos : 0 < rb.capacity
  data_len : rb.data.length = rb.capacity
  count_le : rb.count ≤ rb.capacity
  read_lt : rb.read_pos < rb.capacity
  write_eq : rb.write_pos = (rb.read_pos + rb.count) % rb.capacity

/-- Abstraction function: the queued samples, oldest first. -/
def RingBuffer.contents (rb : RingBuffer α) : List α :=
  (List.range rb.count).map fun j => rb.data.getD ((rb.read_pos + j) % rb.capacity) default

/-- Last `n` elements of a list (all of it when it is shorter). -/
def lastN (n : Nat) (l : List α) : List α := l.drop (l.length - n)

/-! ## Voice state machine (src-tauri/src/voice/mod.rs and pipeline.rs) -/

inductive VoiceState
  | Idle
  | Listening
  | Recording
  | Processing
  | Speaking
deriving DecidableEq

inductive VoiceMode
  | PushToTalk
  | Toggle
  | WakeWord
deriving DecidableEq

/-- Embeds `state_to_u8` (pipeline.rs). -/
def state_to_u8 : VoiceState → Nat
  | VoiceState.Idle => 0
  | VoiceState.Listening => 1
  | VoiceState.Recording => 2
  | VoiceState.Processing => 3
  | VoiceState.Speaking => 4

/-- Embeds `state_from_u8` (pipeline.rs): unknown tags map to `Idle`. -/
def state_from_u8 (v : Nat) : VoiceState :=
  match v with
  | 0 => VoiceState.Idle
  | 1 => VoiceState.Listening
  | 2 => VoiceState.Recording
  | 3 => VoiceState.Processing
  | 4 => VoiceState.Speaking
  | _ => VoiceState.Idle

/-- Embeds the `Display` impl for `VoiceState` (mod.rs). -/
def VoiceState.display : VoiceState → String
  | VoiceState.Idle => "idle"
  | VoiceState.Listening => "listening"
  | VoiceState.Recording => "recording"
  | VoiceState.Processing => "processing"
  | VoiceState.Speaking => "speaking"

/-- The two pipeline events emitted by `finish_speaking` (the full Rust
`VoiceEvent` enum has further variants that `finish_speaking` never emits). -/
inductive VoiceEvent
  | SpeakingEnd
  | StateChange (state : String)
deriving DecidableEq

/-- The `let next_state = match mode { ... }` step of `finish_speaking`:
WakeWord resumes Listening, PushToTalk/Toggle return to Idle. -/
def nextStateAfterSpeaking : VoiceMode → VoiceState
  | VoiceMode.WakeWord => VoiceState.Listening
  | VoiceMode.PushToTalk => VoiceState.Idle
  | VoiceMode.Toggle => VoiceState.Idle

/-- Embeds `finish_speaking` (pipeline.rs).  The atomic state tag is passed
in explicitly; the result is the updated tag together with the events
emitted, in emission order.  The `compare_exchange(Speaking, next)` succeeds
iff the current tag equals `state_to_u8 Speaking`; `SpeakingEnd` is emitted
unconditionally and `StateChange` only on a successful swap. -/
def finish_speaking (st : Nat) (mode : VoiceMode) : Nat × List VoiceEvent :=
  let next := nextStateAfterSpeaking mode
  if st = state_to_u8 VoiceState.Speaking then
    (state_to_u8 next,
      [VoiceEvent.SpeakingEnd, VoiceEvent.StateChange next.display])
  else
    (st, [VoiceEvent.SpeakingEnd])

/-! ## VAD (src-tauri/src/voice/vad.rs)

`f32` samples and timestamps are embedded as rationals; the empty-slice
path computes no arithmetic, so no rounding is involved on it. -/

/-- Embeds `compute_energy`: mean absolute amplitude, `0.0` for an empty
slice (the guard avoids dividing by a zero sample count). -/
def compute_energy (samples : List ℚ) : ℚ :=
  if samples.isEmpty then 0
  else (samples.map (fun s => |s|)).sum / samples.length

structure VadProcessor where
  threshold : ℚ
  silence_start : Option ℚ
  is_speech : Bool
  avg_energy : ℚ
  frame_count : Nat

/-- Embeds `VadProcessor::new(threshold)`. -/
def VadProcessor.new (threshold : ℚ) : VadProcessor :=
  { threshold := threshold
    silence_start := none
    is_speech := false
    avg_energy := 0
    frame_count := 0 }

/-- Embeds `VadProcessor::update_state`; `Instant::now()` is passed in
explicitly as `now`. -/
def VadProcessor.update_state (v : VadProcessor) (now : ℚ) (energy : ℚ) :
    Bool × VadProcessor :=
  let frame_count := v.frame_count + 1
  let alpha : ℚ := 1 / 100
  let avg_energy := v.avg_energy * (1 - alpha) + energy * alpha
  let sp := decide (v.threshold < energy)
  let silence_start :=
    if sp then none
    else if v.silence_start = none then some now
    else v.silence_start
  (sp,
    { threshold := v.threshold
      silence_start := silence_start
      is_speech := sp
      avg_energy := avg_energy
      frame_count := frame_count })

/-- Embeds `VadProcessor::process_frame`. -/
def VadProcessor.process_frame (v : VadProcessor) (now : ℚ) (audio : List ℚ) :
    Bool × VadProcessor :=
  v.update_state now (compute_energy audio)

/-! ## SHA-256 and hex encoding (src-tauri/src/voice/tts.rs)

Bytes are Nats below 256; `u32` arithmetic is Nat arithmetic reduced
modulo 2^32 where the Rust code wraps. -/

/-- Truncation to 32 bits, standing for `u32` wrapping arithmetic. -/
def wrap32 (x : Nat) : Nat := x % 4294967296

/-- Embeds `u32::rotate_right` for values below 2^32. -/
def rotr32 (x r : Nat) : Nat := (x >>> r) ||| wrap32 (x <<< (32 - r))

/-- Big-endian byte expansion of `x` to `k` bytes (`to_be_bytes`). -/
def beBytes (k : Nat) (x : Nat) : List Nat :=
  (List.range k).map fun i => (x >>> ((k - 1 - i) * 8)) % 256

/-- Embeds `u32::from_be_bytes([b0,b1,b2,b3])`. -/
def u32FromBeBytes (b0 b1 b2 b3 : Nat) : Nat :=
  b0 * 16777216 + b1 * 65536 + b2 * 256 + b3

/-- SHA-256 initial hash values (`SHA256_H` in tts.rs). -/
def SHA256_H : List Nat :=
  [1779033703, 3144134277, 1013904242, 2773480762,
   1359893119, 2600822924, 528734635, 1541459225]

/-- SHA-256 round constants (`SHA256_K` in tts.rs). -/
def SHA256_K : List Nat :=
  [1116352408, 1899447441, 3049323471, 3921009573,
   961987163, 1508970993, 2453635748, 2870763221,
   3624381080, 310598401, 607225278, 1426881987,
   1925078388, 2162078206, 2614888103, 3248222580,
   3835390401, 4022224774, 264347078, 604807628,
   770255983, 1249150122, 1555081692, 1996064986,
   2554220882, 2821834349, 2952996808, 3210313671,
   3336571891, 3584528711, 113926993, 338241895,
   666307205, 773529912, 1294757372, 1396182291,
   1695183700, 1986661051, 2177026350, 2456956037,
   2730485921, 2820302411, 3259730800, 3345764771,
   3516065817, 3600352804, 4094571909, 275423344,
   430227734, 506948616, 659060556, 883997877,
   958139571, 1322822218, 1537002063, 1747873779,
   1955562222, 2024104815, 2227730452, 2361852424,
   2428436474, 2756734187, 3204031479, 3329325298]

/-- The padding phase of `sha256`: append 0x80, zeros until the length is
56 mod 64, then the 64-bit big-endian bit length. -/
def sha256pad (input : List Nat) : List Nat :=
  let bitLen := (input.length % 18446744073709551616) * 8 % 18446744073709551616
  let p1 := input ++ [0x80]
  let p2 := p1 ++ List.replicate ((120 - p1.length % 64) % 64) 0
  p2 ++ beBytes 8 bitLen

/-- One step of the message-schedule loop `for i in 16..64`: extends `w`
by the next scheduled word. -/
def schedStep (w : List Nat) : List Nat :=
  let i := w.length
  let w15 := w.getD (i - 15) 0
  let w2 := w.getD (i - 2) 0
  let s0 := rotr32 w15 7 ^^^ rotr32 w15 18 ^^^ (w15 >>> 3)
  let s1 := rotr32 w2 17 ^^^ rotr32 w2 19 ^^^ (w2 >>> 10)
  w ++ [wrap32 (w.getD (i - 16) 0 + s0 + w.getD (i - 7) 0 + s1)]

/-- One round of the compression loop `for i in 0..64`, on the working
state `[a,b,c,d,e,f,g,hh]` (wrapping adds collapsed into one `wrap32`). -/
def compressStep (w : List Nat) (st : List Nat) (i : Nat) : List Nat :=
  match st with
  | [a, b, c, d, e, f, g, hh] =>
    let s1 := rotr32 e 6 ^^^ rotr32 e 11 ^^^ rotr32 e 25
    let ch := (e &&& f) ^^^ ((e ^^^ 0xffffffff) &&& g)
    let temp1 := wrap32 (hh + s1 + ch + SHA256_K.getD i 0 + w.getD i 0)
    let s0 := rotr32 a 2 ^^^ rotr32 a 13 ^^^ rotr32 a 22
    let maj := (a &&& b) ^^^ (a &&& c) ^^^ (b &&& c)
    let temp2 := wrap32 (s0 + maj)
    [wrap32 (temp1 + temp2), a, b, c, wrap32 (d + temp1), e, f, g]
  | other => other

/-- Processing of one 64-byte block: build `w[0..16]` from big-endian
bytes, extend to 64 words, run 64 rounds, add into the hash state. -/
def processBlock (h : List Nat) (block : List Nat) : List Nat :=
  let w16 := (List.range 16).map fun i =>
    u32FromBeBytes (block.getD (i * 4) 0) (block.getD (i * 4 + 1) 0)
      (block.getD (i * 4 + 2) 0) (block.getD (i * 4 + 3) 0)
  let w := schedStep^[48] w16
  let st := (List.range 64).foldl (compressStep w) h
  List.zipWith (fun x y => wrap32 (x + y)) h st

/-- Splits a list into exact 64-byte chunks (`chunks_exact(64)`); a
shorter remainder is ignored (never present after padding).  Structural
recursion on a fuel bound so the definition evaluates by reduction; the
fuel never runs out since each step consumes 64 elements. -/
def chunksOf64 : Nat → List Nat → List (List Nat)
  | 0, _ => []
  | fuel + 1, l =>
    if l.length < 64 then []
    else l.take 64 :: chunksOf64 fuel (l.drop 64)

def chunks64 (l : List Nat) : List (List Nat) := chunksOf64 l.length l

/-- Embeds `sha256` (tts.rs): returns the 32 digest bytes. -/
def sha256 (input : List Nat) : List Nat :=
  let hh := (chunks64 (sha256pad input)).foldl processBlock SHA256_H
  (hh.map (beBytes 4)).flatten

/-- Embeds the `HEX_UPPER` table (tts.rs). -/
def HEX_UPPER : List Char :=
  ['0', '1', '2', '3', '4', '5', '6', '7',
   '8', '9', 'A', 'B', 'C', 'D', 'E', 'F']

/-- Embeds `hex_encode_upper` (tts.rs). -/
def hex_encode_upper (bytes : List Nat) : String :=
  String.mk ((bytes.map fun b =>
    [HEX_UPPER.getD (b >>> 4) '0', HEX_UPPER.getD (b &&& 0x0f) '0']).flatten)

/-! ## Phrase splitter (src-tauri/src/voice/tts.rs, `split_into_phrases`)

Rust `&str` values are embedded as `List Char`; `str::len` (UTF-8 bytes)
is `byteLen` via `Char.utf8Size`.  `Char.isWhitespace` stands for Rust
`char::is_whitespace`, used uniformly both in the embedding and in the
word-sequence specification ("splitting on any whitespace"). -/

def isWs (c : Char) : Bool := c.isWhitespace

/-- UTF-8 byte length of a string (`str::len`). -/
def byteLen (s : List Char) : Nat := (s.map Char.utf8Size).sum

/-- Embeds `str::trim`: drop leading and trailing whitespace. -/
def rsTrim (s : List Char) : List Char :=
  ((s.dropWhile isWs).reverse.dropWhile isWs).reverse

/-- The scanning loop of `split_into_phrases`: walks the characters,
accumulating `current`, splitting at sentence punctuation followed by
whitespace/end or at a newline once the trimmed segment exceeds 10
bytes, and skipping the whitespace after a boundary.  Returns the
collected phrases and the remaining `current`. -/
def splitLoop : List Char → List Char → List (List Char) →
    List (List Char) × List Char
  | [], current, phrases => (phrases, current)
  | c :: rest, current, phrases =>
    let current1 := current ++ [c]
    let isPunct := (c == '.' || c == '!' || c == '?') &&
      (match rest with
       | [] => true
       | r :: _ => isWs r)
    let isPara := c == '\n' && decide (10 < byteLen (rsTrim current1))
    if isPunct || isPara then
      let s := rsTrim current1
      let phrases1 := if s.isEmpty then phrases else phrases ++ [s]
      splitLoop (rest.dropWhile isWs) [] phrases1
    else
      splitLoop rest current1 phrases
termination_by rest _ _ => rest.length
decreasing_by
  · simp only [List.length_cons]
    have hd : (rest.dropWhile isWs).length ≤ rest.length := by
      induction rest with
      | nil => simp
      | cons c2 t ih =>
        by_cases h : isWs c2
        · simp only [List.dropWhile_cons, h, if_true, List.length_cons]
          omega
        · simp [List.dropWhile_cons, h]
    omega
  · simp only [List.length_cons]
    omega

/-- The forward-merge loop of `split_into_phrases`: phrases shorter than
20 bytes are carried and merged with the following phrase until the
merged result reaches 20 bytes.  Returns the merged list and the final
carry. -/
def mergeLoop : List (List Char) → List (List Char) → List Char →
    List (List Char) × List Char
  | [], merged, carry => (merged, carry)
  | s :: rest, merged, carry =>
    if carry.isEmpty then
      if byteLen s < 20 then mergeLoop rest merged s
      else mergeLoop rest (merged ++ [s]) carry
    else
      let carry1 := carry ++ ' ' :: s
      if 20 ≤ byteLen carry1 then mergeLoop rest (merged ++ [carry1]) []
      else mergeLoop rest merged carry1

/-- The `if let Some(last) = v.last_mut() { last.push(' '); last.push_str(&x) }
else { v.push(x) }` pattern used twice in `split_into_phrases`. -/
def pushOrMergeLast (ps : List (List Char)) (x : List Char) : List (List Char) :=
  match ps with
  | [] => [x]
  | _ => ps.dropLast ++ [ps.getLastD [] ++ ' ' :: x]

/-- Embeds `split_into_phrases` (tts.rs). -/
def split_into_phrases (text : List Char) : List (List Char) :=
  let trimmed := rsTrim text
  if trimmed.isEmpty then []
  else if byteLen trimmed < 80 then [trimmed]
  else
    let r := splitLoop trimmed [] []
    let remainder := rsTrim r.2
    let phrases :=
      if remainder.isEmpty then r.1
      else if byteLen remainder < 15 then pushOrMergeLast r.1 remainder
      else r.1 ++ [remainder]
    let m := mergeLoop phrases [] []
    let merged := if m.2.isEmpty then m.1 else pushOrMergeLast m.1 m.2
    if merged.isEmpty then [trimmed] else merged

/-- The word sequence of a string: maximal whitespace-free runs, in
order (the empty runs produced by `splitOnP` are discarded). -/
def words (s : List Char) : List (List Char) :=
  (s.splitOnP isWs).filter fun w => ¬ w.isEmpty

/-- Words of a list of phrases, concatenated in order. -/
def flattenWords (ps : List (List Char)) : List (List Char) :=
  (ps.map words).flatten

/-! ## WebSocket client framing (src-tauri/src/voice/tts.rs)

The async byte stream is embedded as a byte list: `ws_send_frame`
returns the bytes written, `ws_read_frame` parses a frame off the front
of the incoming bytes, returning the frame and the remaining bytes, or
`none` where the Rust reads would fail.  `String::from_utf8_lossy` is an
external library call and is abstracted as the `decode` parameter. -/

inductive WsFrame
  | Text (s : String)
  | Binary (payload : List Nat)
  | Close
  | Ping (payload : List Nat)
deriving DecidableEq

/-- The fixed masking key of `ws_send_frame`. -/
def WS_MASK_KEY : List Nat := [0x37, 0xfa, 0x21, 0x3d]

/-- Embeds `ws_send_frame`: header byte, mask-bit-tagged length (short,
16-bit, or 64-bit big-endian), masking key, then the masked payload. -/
def ws_send_frame (opcode : Nat) (payload : List Nat) : List Nat :=
  let len := payload.length
  let lenPart :=
    if len < 126 then [0x80 ||| len]
    else if len ≤ 65535 then (0x80 ||| 126) :: beBytes 2 len
    else (0x80 ||| 127) :: beBytes 8 len
  let header := (0x80 ||| opcode) :: lenPart ++ WS_MASK_KEY
  let masked := payload.mapIdx fun i b => b ^^^ WS_MASK_KEY.getD (i % 4) 0
  header ++ masked

/-- Models one `read_exact` call: take `n` bytes off the stream or fail. -/
def readExact (n : Nat) (input : List Nat) : Option (List Nat × List Nat) :=
  if n ≤ input.length then some (input.take n, input.drop n) else none

/-- Embeds `u16::from_be_bytes` / `u64::from_be_bytes` on the byte lists
produced by the length reads. -/
def fromBeBytes (bs : List Nat) : Nat :=
  bs.foldl (fun acc b => acc * 256 + b) 0

/-- Embeds `ws_read_frame`: header, extended lengths 126/127, optional
mask key (server frames should not be masked but a mask is tolerated),
payload capped at 10 MiB, unmasking, opcode dispatch. -/
def ws_read_frame (decode : List Nat → String) (input : List Nat) :
    Option (WsFrame × List Nat) :=
  match readExact 2 input with
  | none => none
  | some (hdr, rest1) =>
    let opcode := hdr.getD 0 0 &&& 0x0f
    let masked := (hdr.getD 1 0 &&& 0x80) != 0
    let pl0 := hdr.getD 1 0 &&& 0x7f
    let step2 : Option (Nat × List Nat) :=
      if pl0 = 126 then
        match readExact 2 rest1 with
        | none => none
        | some (buf, r) => some (fromBeBytes buf, r)
      else if pl0 = 127 then
        match readExact 8 rest1 with
        | none => none
        | some (buf, r) => some (fromBeBytes buf, r)
      else some (pl0, rest1)
    match step2 with
    | none => none
    | some (payloadLen, rest2) =>
      let step3 : Option (Option (List Nat) × List Nat) :=
        if masked then
          match readExact 4 rest2 with
          | none => none
          | some (key, r) => some (some key, r)
        else some (none, rest2)
      match step3 with
      | none => none
      | some (maskKey, rest3) =>
        match readExact (min payloadLen (10 * 1024 * 1024)) rest3 with
        | none => none
        | some (payloadRaw, rest4) =>
          let payload :=
            match maskKey with
            | some key => payloadRaw.mapIdx fun i b => b ^^^ key.getD (i % 4) 0
            | none => payloadRaw
          let frame :=
            if opcode = 0x01 then WsFrame.Text (decode payload)
            else if opcode = 0x02 then WsFrame.Binary payload
            else if opcode = 0x08 then WsFrame.Close
            else if opcode = 0x09 then WsFrame.Ping payload
            else if opcode = 0x0a then WsFrame.Ping []
            else WsFrame.Text ""
          some (frame, rest4)

theorem lastN_of_le {n : Nat} {l : List α} (h : l.length ≤ n) : lastN n l = l := by
  simp [lastN, Nat.sub_eq_zero_of_le h]

theorem lastN_append_lastN (n : Nat) (l m : List α) :
    lastN n (lastN n l ++ m) = lastN n (l ++ m) := by
  rcases le_or_lt l.length n with h | h
  · rw [lastN_of_le h]
  · unfold lastN
    have hk : l.length - n ≤ l.length := Nat.sub_le _ _
    have e1 : (List.drop (l.length - n) l ++ m).length - n = m.length := by
      simp only [List.length_append, List.length_drop]; omega
    have e2 : (l ++ m).length - n = (l.length - n) + m.length := by
      simp only [List.length_append]; omega
    rw [e1, e2, ← List.drop_drop, List.drop_append_of_le_length hk]

theorem RingBuffer.inv_new (C : Nat) (hC : 0 < C) : (RingBuffer.new α C).Inv := by
  constructor <;> simp [RingBuffer.new, hC, Nat.mod_eq_of_lt hC]

theorem RingBuffer.contents_new (C : Nat) : (RingBuffer.new α C).contents = [] := by
  simp [RingBuffer.contents, RingBuffer.new]

theorem RingBuffer.length_contents (rb : RingBuffer α) :
    rb.contents.length = rb.count := by
  simp [RingBuffer.contents]

theorem RingBuffer.inv_pushSample {rb : RingBuffer α} (h : rb.Inv) (s : α) :
    (rb.pushSample s).Inv := by
  obtain ⟨hcap, hdata, hcount, hread, hwrite⟩ := h
  rcases le_or_lt rb.capacity rb.count with hfull | hnot
  · have hc : rb.count = rb.capacity := le_antisymm hcount hfull
    have hwr : rb.write_pos = rb.read_pos := by
      rw [hwrite, hc, Nat.add_mod_right, Nat.mod_eq_of_lt hread]
    simp only [RingBuffer.pushSample, if_pos hfull]
    refine ⟨hcap, by simpa using hdata,
      by show rb.count - 1 + 1 ≤ rb.capacity; omega, Nat.mod_lt _ hcap, ?_⟩
    show (rb.write_pos + 1) % rb.capacity
        = ((rb.read_pos + 1) % rb.capacity + (rb.count - 1 + 1)) % rb.capacity
    have hcnt : rb.count - 1 + 1 = rb.capacity := by omega
    rw [hwr, hcnt, Nat.add_mod_right, Nat.mod_mod_of_dvd _ dvd_rfl]
  · simp only [RingBuffer.pushSample, if_neg (not_le.mpr hnot)]
    refine ⟨hcap, by simpa using hdata,
      by show rb.count + 1 ≤ rb.capacity; omega, hread, ?_⟩
    show (rb.write_pos + 1) % rb.capacity = (rb.read_pos + (rb.count + 1)) % rb.capacity
    rw [hwrite, Nat.mod_add_mod, Nat.add_assoc]

theorem getD_set_self {l : List α} {i : Nat} (h : i < l.length) (a d : α) :
    (l.set i a).getD i d = a := by
  rw [List.getD_eq_getElem _ _ (by simpa using h), List.getElem_set_self]

theorem getD_set_ne {l : List α} {i j : Nat} (h : i ≠ j) (a d : α) :
    (l.set i a).getD j d = l.getD j d := by
  simp [List.getD_eq_getElem?_getD, List.getElem?_set_ne h]

theorem mod_add_cancel {cap r a b : Nat} (hab : a ≤ b) (hlt : b - a < cap)
    (h : (r + a) % cap = (r + b) % cap) : a = b := by
  have h3 : a ≡ b [MOD cap] := Nat.ModEq.add_left_cancel' r h
  have h4 := (Nat.modEq_iff_dvd' hab).mp h3
  rcases Nat.eq_zero_or_pos (b - a) with h0 | h0
  · omega
  · exact absurd (Nat.le_of_dvd h0 h4) (by omega)

theorem map_range_drop_one {β : Type} (f : Nat → β) (n : Nat) :
    ((List.range n).map f).drop 1 = (List.range (n - 1)).map fun j => f (j + 1) := by
  cases n with
  | zero => rfl
  | succ n =>
    rw [List.range_succ_eq_map, List.map_cons, List.drop_one, List.tail_cons, List.map_map]
    rfl

theorem map_range_eq_snoc {β : Type} (f : Nat → β) (n : Nat) (hn : 0 < n) :
    (List.range n).map f = ((List.range (n - 1)).map f) ++ [f (n - 1)] := by
  cases n with
  | zero => omega
  | succ n => rw [List.range_succ, List.map_append]; rfl

theorem RingBuffer.capacity_pushSample (rb : RingBuffer α) (s : α) :
    (rb.pushSample s).capacity = rb.capacity := by
  unfold RingBuffer.pushSample
  split <;> rfl

theorem RingBuffer.contents_pushSample {rb : RingBuffer α} (h : rb.Inv) (s : α) :
    (rb.pushSample s).contents = lastN rb.capacity (rb.contents ++ [s]) := by
  obtain ⟨hcap, hdata, hcount, hread, hwrite⟩ := h
  rcases le_or_lt rb.capacity rb.count with hfull | hnot
  · -- full buffer: drop the oldest sample, append the new one
    have hc : rb.count = rb.capacity := le_antisymm hcount hfull
    have hwr : rb.write_pos = rb.read_pos := by
      rw [hwrite, hc, Nat.add_mod_right, Nat.mod_eq_of_lt hread]
    have hlenc : rb.contents.length = rb.capacity := by
      rw [RingBuffer.length_contents, hc]
    have hdrop : lastN rb.capacity (rb.contents ++ [s]) = rb.contents.drop 1 ++ [s] := by
      unfold lastN
      have h1 : (rb.contents ++ [s]).length - rb.capacity = 1 := by
        simp [hlenc]
      rw [h1, List.drop_append_of_le_length (by omega)]
    rw [hdrop]
    simp only [RingBuffer.pushSample, if_pos hfull, RingBuffer.contents]
    have hcnt : rb.count - 1 + 1 = rb.capacity := by omega
    rw [hcnt, hwr, hc, map_range_eq_snoc _ _ hcap, map_range_drop_one]
    congr 1
    · apply List.map_congr_left
      intro j hj
      rw [List.mem_range] at hj
      have hidx : ((rb.read_pos + 1) % rb.capacity + j) % rb.capacity
          = (rb.read_pos + (j + 1)) % rb.capacity := by
        rw [Nat.mod_add_mod]; congr 1; omega
      rw [hidx]
      apply getD_set_ne
      intro heq
      have h0 : (rb.read_pos + 0) % rb.capacity = (rb.read_pos + (j + 1)) % rb.capacity := by
        rw [Nat.add_zero, Nat.mod_eq_of_lt hread]; exact heq
      have := mod_add_cancel (Nat.zero_le _) (by omega) h0
      omega
    · have hidx : ((rb.read_pos + 1) % rb.capacity + (rb.capacity - 1)) % rb.capacity
          = rb.read_pos := by
        rw [Nat.mod_add_mod]
        have h2 : rb.read_pos + 1 + (rb.capacity - 1) = rb.read_pos + rb.capacity := by omega
        rw [h2, Nat.add_mod_right, Nat.mod_eq_of_lt hread]
      rw [hidx, getD_set_self (by rw [hdata]; exact hread)]
  · -- buffer not full: the new sample is appended
    have hlen2 : (rb.contents ++ [s]).length ≤ rb.capacity := by
      simp [RingBuffer.length_contents]; omega
    rw [lastN_of_le hlen2]
    simp only [RingBuffer.pushSample, if_neg (not_le.mpr hnot), RingBuffer.contents]
    rw [List.range_succ, List.map_append]
    congr 1
    · apply List.map_congr_left
      intro j hj
      rw [List.mem_range] at hj
      apply getD_set_ne
      intro heq
      rw [hwrite] at heq
      have := mod_add_cancel (le_of_lt hj) (by omega) heq.symm
      omega
    · simp only [List.map_cons, List.map_nil]
      rw [← hwrite, getD_set_self (by rw [hdata, hwrite]; exact Nat.mod_lt _ hcap)]

theorem RingBuffer.inv_push_slice :
    ∀ (xs : List α) (rb : RingBuffer α), rb.Inv → (rb.push_slice xs).Inv
  | [], _, h => h
  | x :: xs, rb, h => RingBuffer.inv_push_slice xs _ (RingBuffer.inv_pushSample h x)

theorem RingBuffer.contents_push_slice :
    ∀ (xs : List α) (rb : RingBuffer α), rb.Inv →
      (rb.push_slice xs).contents = lastN rb.capacity (rb.contents ++ xs)
  | [], rb, h => by
    rw [List.append_nil,
      lastN_of_le (by rw [RingBuffer.length_contents]; exact h.count_le)]
    rfl
  | x :: xs, rb, h => by
    have h1 := RingBuffer.contents_push_slice xs (rb.pushSample x)
      (RingBuffer.inv_pushSample h x)
    rw [RingBuffer.capacity_pushSample] at h1
    calc (rb.push_slice (x :: xs)).contents
        = ((rb.pushSample x).push_slice xs).contents := rfl
      _ = lastN rb.capacity ((rb.pushSample x).contents ++ xs) := h1
      _ = lastN rb.capacity (lastN rb.capacity (rb.contents ++ [x]) ++ xs) := by
            rw [RingBuffer.contents_pushSample h x]
      _ = lastN rb.capacity ((rb.contents ++ [x]) ++ xs) := lastN_append_lastN _ _ _
      _ = lastN rb.capacity (rb.contents ++ (x :: xs)) := by
            rw [List.append_assoc]; rfl

theorem RingBuffer.popLoop_fst :
    ∀ (n : Nat) (rb : RingBuffer α), rb.Inv → n ≤ rb.count →
      (rb.popLoop n).1 = (List.range n).map
        (fun j => rb.data.getD ((rb.read_pos + j) % rb.capacity) default)
  | 0, _, _, _ => by simp [RingBuffer.popLoop]
  | n + 1, rb, h, hn => by
    obtain ⟨hcap, hdata, hcount, hread, hwrite⟩ := h
    have hinv1 : ({ rb with read_pos := (rb.read_pos + 1) % rb.capacity, count := rb.count - 1 } : RingBuffer α).Inv := by
      refine ⟨hcap, hdata, by show rb.count - 1 ≤ rb.capacity; omega,
        Nat.mod_lt _ hcap, ?_⟩
      show rb.write_pos = ((rb.read_pos + 1) % rb.capacity + (rb.count - 1)) % rb.capacity
      rw [Nat.mod_add_mod, hwrite]
      congr 1
      omega
    have ih := RingBuffer.popLoop_fst n _ hinv1 (by show n ≤ rb.count - 1; omega)
    simp only [RingBuffer.popLoop]
    rw [ih, List.range_succ_eq_map, List.map_cons, List.map_map]
    congr 1
    · simp [Nat.mod_eq_of_lt hread]
    · apply List.map_congr_left
      intro j hj
      simp only [Function.comp]
      rw [Nat.mod_add_mod]
      congr 2
      omega

theorem RingBuffer.drain_all_fst {rb : RingBuffer α} (h : rb.Inv) :
    (rb.drain_all).1 = rb.contents := by
  unfold RingBuffer.drain_all
  rcases Nat.eq_zero_or_pos rb.count with h0 | h0
  · simp [h0, RingBuffer.contents]
  · rw [if_neg (by omega)]
    simp only [RingBuffer.pop_slice, List.length_replicate, Nat.min_self]
    rw [RingBuffer.popLoop_fst rb.count rb h le_rfl, List.drop_replicate]
    simp [RingBuffer.contents]

theorem RingBuffer.push_slice_foldl (rb : RingBuffer α) (xss : List (List α)) :
    xss.foldl RingBuffer.push_slice rb = rb.push_slice xss.flatten := by
  induction xss generalizing rb with
  | nil => rfl
  | cons xs xss ih =>
    show xss.foldl _ (rb.push_slice xs) = _
    rw [ih]
    show (rb.push_slice xs).push_slice xss.flatten = rb.push_slice (xs ++ xss.flatten)
    unfold RingBuffer.push_slice
    rw [List.foldl_append]

theorem RingBuffer.contents_after_pushes (C : Nat) (hC : 0 < C) (ys : List α) :
    ((RingBuffer.new α C).push_slice ys).contents = lastN C ys := by
  rw [RingBuffer.contents_push_slice ys _ (RingBuffer.inv_new C hC),
    RingBuffer.contents_new]
  rfl

/-! ## Conversation history trimming (src-tauri/src/providers/api.rs)

Messages are `serde_json::Value` records; the embedding keeps the fields
`limit_message_history` and the pairing invariant inspect: the optional
`role` string, the optional `tool_call_id` of a tool-result message, and
the list of ids carried by an assistant message's `tool_calls` array. -/

structure Msg where
  role : Option String
  tool_call_id : Option String
  tool_calls : List String
deriving DecidableEq

instance : Inhabited Msg := ⟨⟨none, none, []⟩⟩

/-- `MAX_HISTORY_MESSAGES` (api.rs line 87). -/
def MAX_HISTORY_MESSAGES : Nat := 20

/-- Embeds `ApiProvider::limit_message_history`: keep the leading system
messages, keep the last `min 20 non_system_count` messages, then advance
the window start past any leading `role:"tool"` messages (the Rust
`while` loop is the `takeWhile` count). -/
def limit_message_history (msgs : List Msg) : List Msg :=
  if msgs.length ≤ MAX_HISTORY_MESSAGES then msgs
  else
    let system_end := (msgs.takeWhile fun m => m.role == some "system").length
    let non_system_count := msgs.length - system_end
    let keep := min MAX_HISTORY_MESSAGES non_system_count
    let start0 := msgs.length - keep
    let start_idx := start0 +
      ((msgs.drop start0).takeWhile fun m => m.role == some "tool").length
    msgs.take system_end ++ msgs.drop start_idx

/-- Whether a message is a `role:"tool"` result. -/
def isToolMsg (m : Msg) : Bool := m.role == some "tool"

/-- Whether tool-result `t` is answered by assistant message `a`: `a` has
the assistant role and its `tool_calls` contain `t`'s `tool_call_id`. -/
def pairsWith (t a : Msg) : Bool :=
  (a.role == some "assistant") &&
    (match t.tool_call_id with
     | some s => a.tool_calls.contains s
     | none => false)

/-- The ordering invariant of the conversation history (spec §3): every
tool-result is preceded by the assistant message whose `tool_calls`
contain its id, with only other tool-results of the same turn between
them. -/
def WellPaired (msgs : List Msg) : Prop :=
  ∀ j, j < msgs.length → isToolMsg (msgs.getD j default) →
    ∃ a, a < j ∧ pairsWith (msgs.getD j default) (msgs.getD a default) = true ∧
      ∀ k, k < j → a < k → isToolMsg (msgs.getD k default)

/-- No orphaned tool-result: every `role:"tool"` message has a preceding
assistant message containing its `tool_call_id`. -/
def NoOrphanTool (msgs : List Msg) : Prop :=
  ∀ j, j < msgs.length → isToolMsg (msgs.getD j default) →
    ∃ a, a < j ∧ pairsWith (msgs.getD j default) (msgs.getD a default) = true

/-! ## Tool-call accumulator (src-tauri/src/providers/tool_calling.rs)

A streaming delta is a JSON value; `accumulate` reads `index` via
`get("index").and_then(as_u64).unwrap_or(0)`, `id` via
`get("id").and_then(as_str)`, and `function.name` / `function.arguments`
via the nested `function` object.  The embedding flattens those four
optional reads into a record of options (`none` where any `get`/`as_*`
step fails, which includes an absent `function` object). -/

structure ToolCallDelta where
  index : Option Nat
  id : Option String
  name : Option String
  arguments : Option String

structure AccumulatedToolCall where
  id : String
  name : String
  arguments : String
deriving DecidableEq

instance : Inhabited AccumulatedToolCall := ⟨⟨"", "", ""⟩⟩

/-- The empty slot pushed by the grow-loop of `accumulate`. -/
def emptyAccum : AccumulatedToolCall := ⟨"", "", ""⟩

/-- One iteration of the `for delta in delta_tool_calls` loop of
`ToolCallAccumulator::accumulate`, acting on `(calls, changed)`:
grow the slot vector to cover `index`, then overwrite `id` and append to
`name`/`arguments` for the non-empty optional fields. -/
def accumulateDelta (st : List AccumulatedToolCall × Bool) (delta : ToolCallDelta) :
    List AccumulatedToolCall × Bool :=
  let calls := st.1
  let changed := st.2
  let idx := delta.index.getD 0
  let calls := calls ++ List.replicate (idx + 1 - calls.length) emptyAccum
  let entry := calls.getD idx emptyAccum
  let step1 : AccumulatedToolCall × Bool :=
    match delta.id with
    | some s => if s ≠ "" then ({ entry with id := s }, true) else (entry, changed)
    | none => (entry, changed)
  let step2 : AccumulatedToolCall × Bool :=
    match delta.name with
    | some s =>
      if s ≠ "" then ({ step1.1 with name := step1.1.name ++ s }, true)
      else step1
    | none => step1
  let step3 : AccumulatedToolCall × Bool :=
    match delta.arguments with
    | some s =>
      if s ≠ "" then ({ step2.1 with arguments := step2.1.arguments ++ s }, true)
      else step2
    | none => step2
  (calls.set idx step3.1, step3.2)

/-- Embeds `ToolCallAccumulator::accumulate` on one delta batch: returns
the updated slots and the `changed` flag. -/
def ToolCallAccumulator.accumulate (calls : List AccumulatedToolCall)
    (deltas : List ToolCallDelta) : List AccumulatedToolCall × Bool :=
  deltas.foldl accumulateDelta (calls, false)

/-- A whole stream: `accumulate` applied batch by batch starting from the
empty accumulator (`ToolCallAccumulator::new`). -/
def accumulateStream (batches : List (List ToolCallDelta)) :
    List AccumulatedToolCall :=
  batches.foldl (fun st batch => (ToolCallAccumulator.accumulate st batch).1) []

/-- The effective index of a delta (`unwrap_or(0)`). -/
def effIndex (d : ToolCallDelta) : Nat := d.index.getD 0

/-- Specification function: the non-empty `arguments` fragments written at
index `i`, concatenated in stream order. -/
def argsConcatAt (ds : List ToolCallDelta) (i : Nat) : String :=
  String.join ((ds.filter fun d => effIndex d = i).filterMap fun d =>
    match d.arguments with
    | some s => if s ≠ "" then some s else none
    | none => none)

/-- Specification function: the non-empty `name` fragments written at
index `i`, concatenated in stream order. -/
def nameConcatAt (ds : List ToolCallDelta) (i : Nat) : String :=
  String.join ((ds.filter fun d => effIndex d = i).filterMap fun d =>
    match d.name with
    | some s => if s ≠ "" then some s else none
    | none => none)

/-- Specification function: the last non-empty `id` written at index `i`
("" when none was written). -/
def lastIdAt (ds : List ToolCallDelta) (i : Nat) : String :=
  ((ds.filter fun d => effIndex d = i).filterMap fun d =>
    match d.id with
    | some s => if s ≠ "" then some s else none
    | none => none).getLastD ""

/-- Fragment contributed by one delta to `arguments` ("" when absent or
empty). -/
def argFrag (d : ToolCallDelta) : String :=
  match d.arguments with
  | some s => if s ≠ "" then s else ""
  | none => ""

/-- Fragment contributed by one delta to `name` ("" when absent or
empty). -/
def nameFrag (d : ToolCallDelta) : String :=
  match d.name with
  | some s => if s ≠ "" then s else ""
  | none => ""

/-- Minimal JSON values, the image of `serde_json::Value` needed here. -/
inductive Json where
  | null
  | bool (b : Bool)
  | num (n : Int)
  | str (s : String)
  | arr (xs : List Json)
  | obj (fields : List (String × Json))

structure CompletedToolCall where
  id : String
  name : String
  arguments : Json

/-- Embeds `ToolCallAccumulator::take_completed`.  `serde_json::from_str`
is an external library call abstracted as `parse` (returning `none` on a
parse error, in which case the code warns and falls back to `{}`);
`Uuid::new_v4().simple()` is abstracted as the `fresh` source of
identifier strings, indexed by the position of the call.  The first
component is the returned list; the second is the slot vector left behind
by `std::mem::take`. -/
def take_completed (parse : String → Option Json) (fresh : Nat → String)
    (calls : List AccumulatedToolCall) :
    List CompletedToolCall × List AccumulatedToolCall :=
  ((calls.filter fun tc => tc.name ≠ "").mapIdx fun k tc =>
    { id := if tc.id = "" then "call_" ++ fresh k else tc.id
      name := tc.name
      arguments :=
        if tc.arguments = "" then Json.obj []
        else
          match parse tc.arguments with
          | some v => v
          | none => Json.obj [] },
   [])

theorem readExact_cons2 (a b : Nat) (t : List Nat) :
    readExact 2 (a :: b :: t) = some ([a, b], t) := by
  unfold readExact
  rw [if_pos (by simp)]
  simp

theorem readExact_cons8 (b1 b2 b3 b4 b5 b6 b7 b8 : Nat) (t : List Nat) :
    readExact 8 (b1 :: b2 :: b3 :: b4 :: b5 :: b6 :: b7 :: b8 :: t)
      = some ([b1, b2, b3, b4, b5, b6, b7, b8], t) := by
  unfold readExact
  rw [if_pos (by simp)]
  simp

theorem readExact_key (m : List Nat) :
    readExact 4 (WS_MASK_KEY ++ m) = some (WS_MASK_KEY, m) := by
  unfold readExact WS_MASK_KEY
  rw [if_pos (by simp)]
  simp

theorem readExact_exact (l : List Nat) : readExact l.length l = some (l, []) := by
  unfold readExact
  rw [if_pos le_rfl]
  simp

theorem ws_frame_roundtrip_mid (decode : List Nat → String) (payload : List Nat)
    (h1 : 126 ≤ payload.length) (h2 : payload.length ≤ 65535) :
    ws_read_frame decode (ws_send_frame 2 payload)
      = some (WsFrame.Binary payload, []) := by
  have hnlt : ¬ payload.length < 126 := by omega
  have hsend : ws_send_frame 2 payload
      = 130 :: 254 :: ((payload.length >>> 8) % 256) :: (payload.length % 256) ::
        (WS_MASK_KEY ++ (payload.mapIdx fun i b => b ^^^ WS_MASK_KEY.getD (i % 4) 0)) := by
    simp [ws_send_frame, hnlt, h2, beBytes, List.range_succ]
  rw [hsend]
  have hfrom : fromBeBytes [(payload.length >>> 8) % 256, payload.length % 256]
      = payload.length := by
    simp [fromBeBytes, Nat.shiftRight_eq_div_pow]
    omega
  simp only [ws_read_frame, readExact_cons2]
  simp only [List.getD_cons_zero, List.getD_cons_succ]
  norm_num
  simp only [show (254 &&& 127 : Nat) = 126 from by decide,
    show (254 &&& 128 : Nat) = 128 from by decide,
    show (130 &&& 15 : Nat) = 2 from by decide]
  norm_num
  rw [hfrom]
  rw [readExact_key]
  have hre : readExact payload.length
      (List.mapIdx (fun i b => b ^^^ WS_MASK_KEY[i % 4]?.getD 0) payload)
      = some (List.mapIdx (fun i b => b ^^^ WS_MASK_KEY[i % 4]?.getD 0) payload, []) := by
    have h := readExact_exact
      (List.mapIdx (fun i b => b ^^^ WS_MASK_KEY[i % 4]?.getD 0) payload)
    simpa using h
  simp only [show payload.length ⊓ 10485760 = payload.length from
    min_eq_left (by omega), hre]
  simp
  apply List.ext_getElem
  · simp
  · intro n hn1 hn2
    simp [List.getElem_mapIdx, Nat.xor_assoc]

theorem ws_frame_roundtrip_large (decode : List Nat → String) (payload : List Nat)
    (h1 : 65535 < payload.length) (h2 : payload.length ≤ 10485760) :
    ws_read_frame decode (ws_send_frame 2 payload)
      = some (WsFrame.Binary payload, []) := by
  have hnlt : ¬ payload.length < 126 := by omega
  have hn2 : ¬ payload.length ≤ 65535 := by omega
  have hsend : ws_send_frame 2 payload
      = 130 :: 255 :: ((payload.length >>> 56) % 256) :: ((payload.length >>> 48) % 256) ::
        ((payload.length >>> 40) % 256) :: ((payload.length >>> 32) % 256) ::
        ((payload.length >>> 24) % 256) :: ((payload.length >>> 16) % 256) ::
        ((payload.length >>> 8) % 256) :: (payload.length % 256) ::
        (WS_MASK_KEY ++ (payload.mapIdx fun i b => b ^^^ WS_MASK_KEY.getD (i % 4) 0)) := by
    simp [ws_send_frame, hnlt, hn2, beBytes, List.range_succ]
  rw [hsend]
  have hfrom : fromBeBytes [(payload.length >>> 56) % 256, (payload.length >>> 48) % 256,
      (payload.length >>> 40) % 256, (payload.length >>> 32) % 256,
      (payload.length >>> 24) % 256, (payload.length >>> 16) % 256,
      (payload.length >>> 8) % 256, payload.length % 256] = payload.length := by
    simp [fromBeBytes, Nat.shiftRight_eq_div_pow]
    omega
  simp only [ws_read_frame, readExact_cons2]
  simp only [List.getD_cons_zero, List.getD_cons_succ]
  norm_num
  simp only [show (255 &&& 127 : Nat) = 127 from by decide,
    show (255 &&& 128 : Nat) = 128 from by decide,
    show (130 &&& 15 : Nat) = 2 from by decide]
  norm_num
  rw [readExact_cons8]
  simp only []
  rw [hfrom]
  rw [readExact_key]
  have hre : readExact payload.length
      (List.mapIdx (fun i b => b ^^^ WS_MASK_KEY[i % 4]?.getD 0) payload)
      = some (List.mapIdx (fun i b => b ^^^ WS_MASK_KEY[i % 4]?.getD 0) payload, []) := by
    have h := readExact_exact
      (List.mapIdx (fun i b => b ^^^ WS_MASK_KEY[i % 4]?.getD 0) payload)
    simpa using h
  simp only [show payload.length ⊓ 10485760 = payload.length from
    min_eq_left (by omega), hre]
  simp
  apply List.ext_getElem
  · simp
  · intro n hn1 hn2
    simp [List.getElem_mapIdx, Nat.xor_assoc]

theorem modifyHead_append {β : Type} (f : List β → List β) (L M : List (List β))
    (h : L ≠ []) : (L ++ M).modifyHead f = L.modifyHead f ++ M := by
  cases L with
  | nil => exact absurd rfl h
  | cons x xs => rfl

theorem splitOnP_sep {β : Type} (p : β → Bool) (sep : β) (hsep : p sep) :
    ∀ (a b : List β), (a ++ sep :: b).splitOnP p = a.splitOnP p ++ b.splitOnP p
  | [], b => by simp [List.splitOnP_cons, hsep, List.splitOnP_nil]
  | c :: a, b => by
    rw [List.cons_append, List.splitOnP_cons, List.splitOnP_cons]
    by_cases h : p c
    · simp only [h, if_true]
      rw [splitOnP_sep p sep hsep a b]
      rfl
    · simp only [h, if_false]
      rw [splitOnP_sep p sep hsep a b,
        modifyHead_append _ _ _ (List.splitOnP_ne_nil p a)]
      simp

theorem words_nil : words [] = [] := rfl

theorem words_cons_ws {c : Char} (hc : isWs c) (t : List Char) :
    words (c :: t) = words t := by
  unfold words
  rw [List.splitOnP_cons]
  simp [hc]

theorem words_sep {w : Char} (hw : isWs w) (a b : List Char) :
    words (a ++ w :: b) = words a ++ words b := by
  unfold words
  rw [splitOnP_sep isWs w hw a b, List.filter_append]

theorem words_snoc_ws {w : Char} (hw : isWs w) (s : List Char) :
    words (s ++ [w]) = words s := by
  have h := words_sep hw s []
  simpa [words_nil] using h

theorem words_dropWhile (t : List Char) : words (t.dropWhile isWs) = words t := by
  induction t with
  | nil => rfl
  | cons c t ih =>
    by_cases h : isWs c
    · rw [List.dropWhile_cons, if_pos h, ih, words_cons_ws h]
    · rw [List.dropWhile_cons, if_neg h]

theorem words_reverse_dropWhile (u : List Char) :
    words (u.dropWhile isWs).reverse = words u.reverse := by
  induction u with
  | nil => rfl
  | cons c u ih =>
    by_cases h : isWs c
    · rw [List.dropWhile_cons, if_pos h, ih, List.reverse_cons, words_snoc_ws h]
    · rw [List.dropWhile_cons, if_neg h]

theorem words_rsTrim (s : List Char) : words (rsTrim s) = words s := by
  unfold rsTrim
  rw [words_reverse_dropWhile, List.reverse_reverse, words_dropWhile]

theorem words_eq_nil_of_trim {s : List Char} (h : (rsTrim s).isEmpty) :
    words s = [] := by
  rw [← words_rsTrim, List.isEmpty_iff.mp h]
  rfl

theorem flattenWords_nil : flattenWords [] = [] := rfl

theorem flattenWords_append (l m : List (List Char)) :
    flattenWords (l ++ m) = flattenWords l ++ flattenWords m := by
  unfold flattenWords
  rw [List.map_append, List.flatten_append]

theorem flattenWords_singleton (x : List Char) :
    flattenWords [x] = words x := by
  simp [flattenWords]

theorem flattenWords_cons (x : List Char) (l : List (List Char)) :
    flattenWords (x :: l) = words x ++ flattenWords l := by
  simp [flattenWords]

theorem words_intercalate : ∀ (ps : List (List Char)),
    words (List.intercalate [' '] ps) = flattenWords ps
  | [] => rfl
  | [p] => by
    simp [List.intercalate, flattenWords]
  | p :: q :: t => by
    have h : List.intercalate [' '] (p :: q :: t)
        = p ++ ' ' :: List.intercalate [' '] (q :: t) := by
      simp [List.intercalate, List.intersperse]
    rw [h, words_sep (by decide) p, words_intercalate (q :: t),
      show (p :: q :: t) = [p] ++ (q :: t) from rfl, flattenWords_append,
      flattenWords_singleton]

theorem flattenWords_merge_last (ps : List (List Char)) (x : List Char)
    (h : ps ≠ []) :
    flattenWords (ps.dropLast ++ [ps.getLastD [] ++ ' ' :: x])
      = flattenWords ps ++ words x := by
  induction ps using List.reverseRecOn with
  | nil => exact absurd rfl h
  | append_singleton init last _ =>
    rw [List.dropLast_concat, List.getLastD_concat, flattenWords_append,
      flattenWords_singleton, words_sep (by decide) last x,
      flattenWords_append, flattenWords_singleton, List.append_assoc]

theorem pushOrMergeLast_words (ps : List (List Char)) (x : List Char) :
    flattenWords (pushOrMergeLast ps x) = flattenWords ps ++ words x := by
  cases ps with
  | nil =>
    rw [show pushOrMergeLast [] x = [x] from rfl, flattenWords_singleton,
      flattenWords_nil, List.nil_append]
  | cons p ps2 =>
    rw [show pushOrMergeLast (p :: ps2) x
        = (p :: ps2).dropLast ++ [(p :: ps2).getLastD [] ++ ' ' :: x] from rfl]
    exact flattenWords_merge_last (p :: ps2) x (by simp)

theorem splitLoop_words : ∀ (rest current : List Char) (phrases : List (List Char)),
    flattenWords (splitLoop rest current phrases).1
        ++ words (splitLoop rest current phrases).2
      = flattenWords phrases ++ words (current ++ rest) := by
  intro rest current phrases
  induction rest, current, phrases using splitLoop.induct with
  | case1 current phrases =>
    simp only [splitLoop]
    rw [List.append_nil]
  | case2 c rest current phrases current1 isPunct isPara hb s phrases1 ih =>
    rw [splitLoop.eq_def]
    simp only []
    have hph1 : (if (rsTrim (current ++ [c])).isEmpty = true then phrases
        else phrases ++ [rsTrim (current ++ [c])]) = phrases1 := by
      simp only [phrases1, s, current1]
      rw [dite_eq_ite]
    rw [if_pos hb, hph1, ih, List.nil_append, words_dropWhile]
    have hphr : flattenWords phrases1 = flattenWords phrases ++ words current1 := by
      by_cases hs : s.isEmpty = true
      · have he : phrases1 = phrases := by simp [phrases1, hs]
        rw [he]
        have h0 : words current1 = [] := by
          rw [← words_rsTrim, show rsTrim current1 = s from rfl,
            List.isEmpty_iff.mp hs]
          rfl
        rw [h0, List.append_nil]
      · have he : phrases1 = phrases ++ [s] := by simp [phrases1, hs]
        rw [he, flattenWords_append, flattenWords_singleton,
          show (s : List Char) = rsTrim current1 from rfl, words_rsTrim]
    have hsplit : words (current ++ c :: rest) = words current1 ++ words rest := by
      have hb2 : isPunct = true ∨ isPara = true := by
        rw [← Bool.or_eq_true]
        exact hb
      rcases hb2 with hpunct | hpara
      · have h2 := ((Bool.and_eq_true _ _).mp hpunct).2
        cases rest with
        | nil =>
          show words (current ++ [c]) = words current1 ++ words []
          rw [words_nil, List.append_nil]
        | cons r rest2 =>
          have hwr : isWs r := h2
          rw [show current ++ c :: r :: rest2 = (current ++ [c]) ++ r :: rest2 by simp]
          rw [words_sep hwr, words_cons_ws hwr]
      · have hc : c = '\n' := by
          have h3 : (c == '\n') = true := ((Bool.and_eq_true _ _).mp hpara).1
          exact eq_of_beq h3
        have hwc : isWs c := by rw [hc]; decide
        rw [words_sep hwc current rest,
          show words current1 = words (current ++ [c]) from rfl, words_snoc_ws hwc]
    rw [hphr, hsplit, List.append_assoc]
  | case3 c rest current phrases current1 isPunct isPara hb ih =>
    rw [splitLoop.eq_def]
    simp only []
    rw [if_neg hb, ih,
      show current1 ++ rest = current ++ c :: rest by simp [current1]]

theorem mergeLoop_words : ∀ (input merged : List (List Char)) (carry : List Char),
    flattenWords (mergeLoop input merged carry).1
        ++ words (mergeLoop input merged carry).2
      = flattenWords merged ++ words carry ++ flattenWords input
  | [], merged, carry => by
    simp only [mergeLoop]
    rw [flattenWords_nil, List.append_nil]
  | s :: rest, merged, carry => by
    simp only [mergeLoop]
    by_cases hc : carry.isEmpty = true
    · rw [if_pos hc]
      have hcn : carry = [] := List.isEmpty_iff.mp hc
      by_cases hs : byteLen s < 20
      · rw [if_pos hs, mergeLoop_words rest merged s, hcn, words_nil,
          flattenWords_cons]
        simp [List.append_assoc]
      · rw [if_neg hs, mergeLoop_words rest (merged ++ [s]) carry,
          flattenWords_append, flattenWords_singleton, hcn, words_nil,
          flattenWords_cons]
        simp [List.append_assoc]
    · rw [if_neg hc]
      by_cases h20 : 20 ≤ byteLen (carry ++ ' ' :: s)
      · rw [if_pos h20, mergeLoop_words rest (merged ++ [carry ++ ' ' :: s]) [],
          flattenWords_append, flattenWords_singleton,
          words_sep (by decide) carry s, words_nil, flattenWords_cons]
        simp [List.append_assoc]
      · rw [if_neg h20, mergeLoop_words rest merged (carry ++ ' ' :: s),
          words_sep (by decide) carry s, flattenWords_cons]
        simp [List.append_assoc]

theorem pushOrMergeLast_ne_nil (ps : List (List Char)) (x : List Char) :
    pushOrMergeLast ps x ≠ [] := by
  cases ps <;> simp [pushOrMergeLast]

theorem merge_stage_words (ph : List (List Char)) (trimmed : List Char)
    (h : flattenWords ph = words trimmed) :
    flattenWords (
      let m := mergeLoop ph [] []
      let merged := if m.2.isEmpty then m.1 else pushOrMergeLast m.1 m.2
      if merged.isEmpty then [trimmed] else merged) = words trimmed := by
  simp only []
  have hm := mergeLoop_words ph [] []
  rw [flattenWords_nil, words_nil, List.append_nil, List.nil_append, h] at hm
  by_cases hm2 : (mergeLoop ph [] []).2.isEmpty = true
  · simp only [hm2, if_true]
    have hw2 : words (mergeLoop ph [] []).2 = [] := by
      rw [List.isEmpty_iff.mp hm2, words_nil]
    rw [hw2, List.append_nil] at hm
    by_cases hm1 : (mergeLoop ph [] []).1.isEmpty = true
    · simp only [hm1, if_true]
      rw [flattenWords_singleton]
    · rw [if_neg hm1]
      exact hm
  · simp only [if_neg hm2]
    have hne := pushOrMergeLast_ne_nil (mergeLoop ph [] []).1 (mergeLoop ph [] []).2
    rw [if_neg (by simpa [List.isEmpty_iff] using hne), pushOrMergeLast_words]
    exact hm

theorem foldl_append_str : ∀ (t : List String) (a : String),
    t.foldl (· ++ ·) a = a ++ String.join t
  | [], a => by simp [String.join]
  | s :: t, a => by
    show t.foldl (· ++ ·) (a ++ s) = a ++ String.join (s :: t)
    rw [foldl_append_str t (a ++ s)]
    show a ++ s ++ String.join t = a ++ List.foldl (· ++ ·) "" (s :: t)
    rw [show List.foldl (· ++ ·) "" (s :: t) = List.foldl (· ++ ·) ("" ++ s) t from rfl]
    rw [foldl_append_str t ("" ++ s), String.empty_append, String.append_assoc]

theorem joinStr_append (l1 l2 : List String) :
    String.join (l1 ++ l2) = String.join l1 ++ String.join l2 := by
  show List.foldl (· ++ ·) "" (l1 ++ l2) = _
  rw [List.foldl_append, foldl_append_str]
  rfl

theorem accumulateDelta_fst (p : List AccumulatedToolCall × Bool) (d : ToolCallDelta) :
    (accumulateDelta p d).1 = (accumulateDelta (p.1, false) d).1 := by
  unfold accumulateDelta
  cases hid : d.id <;> cases hn : d.name <;> cases ha : d.arguments <;>
    simp only [] <;> split_ifs <;> rfl

theorem foldl_accumulateDelta_fst : ∀ (ds : List ToolCallDelta)
    (p : List AccumulatedToolCall × Bool),
    (ds.foldl accumulateDelta p).1 = (ds.foldl accumulateDelta (p.1, false)).1
  | [], p => rfl
  | d :: ds, p => by
    show (ds.foldl accumulateDelta (accumulateDelta p d)).1 = _
    rw [foldl_accumulateDelta_fst ds (accumulateDelta p d), accumulateDelta_fst p d]
    show _ = (ds.foldl accumulateDelta (accumulateDelta (p.1, false) d)).1
    rw [foldl_accumulateDelta_fst ds (accumulateDelta (p.1, false) d)]

theorem accumulateStream_flatten : ∀ (batches : List (List ToolCallDelta))
    (calls : List AccumulatedToolCall),
    batches.foldl (fun st batch => (ToolCallAccumulator.accumulate st batch).1) calls
      = (ToolCallAccumulator.accumulate calls batches.flatten).1
  | [], calls => rfl
  | b :: bs, calls => by
    show bs.foldl _ (ToolCallAccumulator.accumulate calls b).1 = _
    rw [accumulateStream_flatten bs]
    show (ToolCallAccumulator.accumulate (ToolCallAccumulator.accumulate calls b).1
        bs.flatten).1
      = (ToolCallAccumulator.accumulate calls (b ++ bs.flatten)).1
    unfold ToolCallAccumulator.accumulate
    rw [List.foldl_append]
    rw [foldl_accumulateDelta_fst bs.flatten (List.foldl accumulateDelta (calls, false) b)]

theorem getD_append_replicate {β : Type} [Inhabited β] (l : List β) (k i : Nat) (e : β) :
    (l ++ List.replicate k e).getD i e = l.getD i e := by
  rcases lt_or_le i l.length with h | h
  · simp [List.getD_eq_getElem?_getD, List.getElem?_append, h]
  · simp [List.getD_eq_getElem?_getD, List.getElem?_append_right h,
      List.getElem?_replicate]
    rcases lt_or_le (i - l.length) k with h2 | h2
    · simp [h2, List.getElem?_eq_none (by omega : l.length ≤ i)]
    · simp [Nat.not_lt.mpr h2, List.getElem?_eq_none (by omega : l.length ≤ i)]

theorem argsConcatAt_snoc (ds : List ToolCallDelta) (d : ToolCallDelta) (i : Nat) :
    argsConcatAt (ds ++ [d]) i
      = argsConcatAt ds i ++ (if effIndex d = i then argFrag d else "") := by
  unfold argsConcatAt
  rw [List.filter_append, List.filterMap_append, joinStr_append]
  congr 1
  by_cases h : effIndex d = i
  · simp only [h, List.filter_cons, List.filter_nil, if_true]
    cases ha : d.arguments with
    | none => simp [List.filterMap, ha, argFrag, String.join]
    | some s =>
      by_cases hs : s = ""
      · simp [List.filterMap, ha, hs, argFrag, String.join]
      · simp [List.filterMap, ha, hs, argFrag, String.join, String.append_empty]
  · simp [List.filter_cons, h, String.join]

theorem nameConcatAt_snoc (ds : List ToolCallDelta) (d : ToolCallDelta) (i : Nat) :
    nameConcatAt (ds ++ [d]) i
      = nameConcatAt ds i ++ (if effIndex d = i then nameFrag d else "") := by
  unfold nameConcatAt
  rw [List.filter_append, List.filterMap_append, joinStr_append]
  congr 1
  by_cases h : effIndex d = i
  · simp only [h, List.filter_cons, List.filter_nil, if_true]
    cases hn : d.name with
    | none => simp [List.filterMap, hn, nameFrag, String.join]
    | some s =>
      by_cases hs : s = ""
      · simp [List.filterMap, hn, hs, nameFrag, String.join]
      · simp [List.filterMap, hn, hs, nameFrag, String.join, String.append_empty]
  · simp [List.filter_cons, h, String.join]

theorem lastIdAt_snoc (ds : List ToolCallDelta) (d : ToolCallDelta) (i : Nat) :
    lastIdAt (ds ++ [d]) i
      = if effIndex d = i then
          (match d.id with
           | some s => if s ≠ "" then s else lastIdAt ds i
           | none => lastIdAt ds i)
        else lastIdAt ds i := by
  unfold lastIdAt
  rw [List.filter_append, List.filterMap_append]
  by_cases h : effIndex d = i
  · simp only [h, List.filter_cons, List.filter_nil, if_true]
    cases hid : d.id with
    | none => simp [List.filterMap, hid]
    | some s =>
      by_cases hs : s = ""
      · simp [List.filterMap, hid, hs]
      · simp [List.filterMap, hid, hs, List.getLastD_concat]
  · simp [List.filter_cons, h]

theorem accumulate_getD_spec (ds : List ToolCallDelta) (i : Nat) :
    ((ToolCallAccumulator.accumulate [] ds).1.getD i emptyAccum)
      = ⟨lastIdAt ds i, nameConcatAt ds i, argsConcatAt ds i⟩ := by
  induction ds using List.reverseRecOn generalizing i with
  | nil =>
    simp [ToolCallAccumulator.accumulate, lastIdAt, nameConcatAt, argsConcatAt,
      emptyAccum, String.join]
  | append_singleton ds d ih =>
    have hacc : (ToolCallAccumulator.accumulate [] (ds ++ [d])).1
        = (accumulateDelta ((ToolCallAccumulator.accumulate [] ds).1, false) d).1 := by
      unfold ToolCallAccumulator.accumulate
      rw [List.foldl_concat]
      exact accumulateDelta_fst _ d
    rw [hacc, argsConcatAt_snoc, nameConcatAt_snoc, lastIdAt_snoc]
    unfold accumulateDelta effIndex
    simp only []
    have hpad : ∀ j, ((ToolCallAccumulator.accumulate [] ds).1 ++
        List.replicate ((d.index.getD 0) + 1 -
          (ToolCallAccumulator.accumulate [] ds).1.length) emptyAccum).getD j emptyAccum
        = ((ToolCallAccumulator.accumulate [] ds).1).getD j emptyAccum :=
      fun j => getD_append_replicate _ _ j emptyAccum
    have hpadE := hpad
    have ih2 := ih
    simp only [List.getD_eq_getElem?_getD] at hpadE ih2
    by_cases h : i = d.index.getD 0
    · subst h
      rw [getD_set_self (by simp [List.length_append, List.length_replicate]; omega)]
      cases hid : d.id <;> cases hn : d.name <;> cases ha : d.arguments <;>
        simp [hid, hn, ha, hpadE, ih2, argFrag, nameFrag] <;> (try split_ifs) <;>
        simp_all [String.append_empty]
    · rw [getD_set_ne (Ne.symm h)]
      rw [hpad i, ih i]
      simp [Ne.symm h, String.append_empty]



theorem take_length_takeWhile {β : Type} (p : β → Bool) (l : List β) :
    l.take (l.takeWhile p).length = l.takeWhile p := by
  induction l with
  | nil => rfl
  | cons c t ih =>
    by_cases hp : p c
    · rw [List.takeWhile_cons, if_pos hp, List.length_cons, List.take_succ_cons, ih]
    · rw [List.takeWhile_cons, if_neg hp]
      rfl

theorem drop_length_takeWhile {β : Type} (p : β → Bool) (l : List β) :
    l.drop (l.takeWhile p).length = l.dropWhile p := by
  induction l with
  | nil => rfl
  | cons c t ih =>
    by_cases hp : p c
    · rw [List.takeWhile_cons, if_pos hp, List.dropWhile_cons, if_pos hp,
        List.length_cons, List.drop_succ_cons, ih]
    · rw [List.takeWhile_cons, if_neg hp, List.dropWhile_cons, if_neg hp]
      rfl

theorem getD_lt_takeWhile_length {β : Type} [Inhabited β] {p : β → Bool}
    {l : List β} {a : Nat} (ha : a < (l.takeWhile p).length) :
    p (l.getD a default) = true := by
  have he : l.getD a default = (l.takeWhile p).getD a default := by
    rw [List.getD_eq_getElem?_getD, List.getD_eq_getElem?_getD]
    conv_rhs => rw [← take_length_takeWhile p l, List.getElem?_take, if_pos ha]
  rw [he, List.getD_eq_getElem _ _ ha]
  exact List.mem_takeWhile_imp (List.getElem_mem ha)

theorem after_takeWhile_not {β : Type} [Inhabited β] (p : β → Bool) (l : List β)
    (h : (l.takeWhile p).length < l.length) :
    p (l.getD (l.takeWhile p).length default) = false := by
  have hd : l.drop (l.takeWhile p).length = l.dropWhile p := drop_length_takeWhile p l
  have hlen : 0 < (l.dropWhile p).length := by
    rw [← hd]
    simp only [List.length_drop]
    omega
  have hnot := List.dropWhile_get_zero_not p l hlen
  have e1 : (l.dropWhile p)[0]? = some ((l.dropWhile p).get ⟨0, hlen⟩) :=
    List.getElem?_eq_getElem hlen
  have e2 : (l.dropWhile p)[0]? = l[(l.takeWhile p).length]? := by
    rw [← hd, List.getElem?_drop, Nat.add_zero]
  have h2 : l.getD (l.takeWhile p).length default = (l.dropWhile p).get ⟨0, hlen⟩ := by
    rw [List.getD_eq_getElem?_getD, ← e2, e1]
    rfl
  rw [h2]
  simp only [Bool.not_eq_true] at hnot
  exact hnot



theorem isToolMsg_false_of_sys {m : Msg} (h : (m.role == some "system") = true) :
    isToolMsg m = false := by
  unfold isToolMsg
  rw [beq_iff_eq] at h
  rw [h]
  decide

theorem pairsWith_false_of_sys (t : Msg) {a : Msg}
    (h : (a.role == some "system") = true) : pairsWith t a = false := by
  unfold pairsWith
  rw [beq_iff_eq] at h
  rw [h, show ((some "system" : Option String) == some "assistant") = false from by
    decide, Bool.false_and]

theorem trimmed_facts (msgs : List Msg) (h : WellPaired msgs) (start : Nat)
    (hge : (msgs.takeWhile fun m => m.role == some "system").length ≤ start)
    (hnt : start < msgs.length → isToolMsg (msgs.getD start default) = false) :
    ((msgs.take (msgs.takeWhile fun m => m.role == some "system").length ++
        msgs.drop start).take
        (msgs.takeWhile fun m => m.role == some "system").length
      = msgs.takeWhile (fun m => m.role == some "system")) ∧
    (∀ m0, ((msgs.take (msgs.takeWhile fun m => m.role == some "system").length ++
        msgs.drop start).drop
        (msgs.takeWhile fun m => m.role == some "system").length).head? = some m0 →
      isToolMsg m0 = false) ∧
    NoOrphanTool (msgs.take (msgs.takeWhile fun m => m.role == some "system").length ++
        msgs.drop start) := by
  have hSEL : (msgs.takeWhile fun m => m.role == some "system").length ≤ msgs.length :=
    (List.takeWhile_prefix _).length_le
  have hTlen : (msgs.take (msgs.takeWhile fun m => m.role == some "system").length).length
      = (msgs.takeWhile fun m => m.role == some "system").length := by
    rw [List.length_take]
    omega
  have hidx_hi : ∀ i, ((msgs.take (msgs.takeWhile fun m => m.role == some "system").length ++
      msgs.drop start).getD
        ((msgs.takeWhile fun m => m.role == some "system").length + i) default)
      = msgs.getD (start + i) default := by
    intro i
    rw [List.getD_eq_getElem?_getD, List.getD_eq_getElem?_getD]
    congr 1
    rw [List.getElem?_append_right (by rw [hTlen]; omega), hTlen,
      Nat.add_sub_cancel_left, List.getElem?_drop]
  have hidx_lo : ∀ a, a < (msgs.takeWhile fun m => m.role == some "system").length →
      ((msgs.take (msgs.takeWhile fun m => m.role == some "system").length ++
        msgs.drop start).getD a default) = msgs.getD a default := by
    intro a ha
    rw [List.getD_eq_getElem?_getD, List.getD_eq_getElem?_getD]
    congr 1
    rw [List.getElem?_append, if_pos (by rw [hTlen]; exact ha),
      List.getElem?_take, if_pos ha]
  refine ⟨?_, ?_, ?_⟩
  · rw [List.take_left' hTlen, take_length_takeWhile]
  · intro m0 hm0
    rw [List.drop_left' hTlen, List.head?_drop] at hm0
    have hbound : start < msgs.length := by
      by_contra hb
      push_neg at hb
      rw [List.getElem?_eq_none (by omega)] at hm0
      exact Option.noConfusion hm0
    have hm0e : m0 = msgs.getD start default := by
      rw [List.getD_eq_getElem?_getD, hm0]
      rfl
    rw [hm0e]
    exact hnt hbound
  · intro j hj htool
    by_cases hjse : j < (msgs.takeWhile fun m => m.role == some "system").length
    · rw [hidx_lo j hjse] at htool
      have hsys := getD_lt_takeWhile_length hjse
      rw [isToolMsg_false_of_sys hsys] at htool
      exact Bool.noConfusion htool
    · push_neg at hjse
      have hi : j = (msgs.takeWhile fun m => m.role == some "system").length +
          (j - (msgs.takeWhile fun m => m.role == some "system").length) := by omega
      rw [hi, hidx_hi] at htool
      have hjlen : start + (j - (msgs.takeWhile fun m => m.role == some "system").length)
          < msgs.length := by
        rw [List.length_append, hTlen, List.length_drop] at hj
        omega
      obtain ⟨a, haJ, hpair, hcontig⟩ := h _ hjlen htool
      have hastart : start ≤ a := by
        by_contra hb
        push_neg at hb
        have hstartlt : start < msgs.length := by omega
        have hntf := hnt hstartlt
        rcases Nat.lt_or_ge start
            (start + (j - (msgs.takeWhile fun m => m.role == some "system").length))
          with hlt | hge2
        · have hk := hcontig start hlt hb
          rw [hntf] at hk
          exact Bool.noConfusion hk
        · have hSJ : start
              = start + (j - (msgs.takeWhile fun m => m.role == some "system").length) := by
            omega
          rw [← hSJ] at htool
          rw [hntf] at htool
          exact Bool.noConfusion htool
      refine ⟨(msgs.takeWhile fun m => m.role == some "system").length + (a - start),
        by omega, ?_⟩
      rw [hi, hidx_hi, hidx_hi]
      have he2 : start + (a - start) = a := by omega
      rw [he2]
      exact hpair

/-! ## Claim theorems -/

/-- C1: for the ring buffer with capacity C, after any sequence of
`push_slice` calls whose total number of samples N exceeds C, `drain_all`
returns exactly the most recent C samples in the order they were pushed. -/
theorem C1_ring_buffer_overflow {α : Type} [Inhabited α] (C : Nat)
    (xss : List (List α)) (hC : 0 < C) (hN : C < xss.flatten.length) :
    ((xss.foldl RingBuffer.push_slice (RingBuffer.new α C)).drain_all).1
      = xss.flatten.drop (xss.flatten.length - C) := by
  rw [RingBuffer.push_slice_foldl,
    RingBuffer.drain_all_fst (RingBuffer.inv_push_slice _ _ (RingBuffer.inv_new C hC)),
    RingBuffer.contents_after_pushes C hC]
  rfl

/-- Witness for C1 at the spec's concrete instance: capacity 4, pushing
[1,2,3,4,5,6], then drain-all yields [3,4,5,6]. -/
theorem C1_ring_buffer_overflow_witness :
    (0 < 4 ∧ 4 < ([[1, 2, 3, 4, 5, 6]] : List (List Int)).flatten.length) ∧
    ((([[1, 2, 3, 4, 5, 6]] : List (List Int)).foldl RingBuffer.push_slice
        (RingBuffer.new Int 4)).drain_all).1 = [3, 4, 5, 6] :=
  ⟨⟨by decide, by decide⟩,
    (C1_ring_buffer_overflow 4 [[1, 2, 3, 4, 5, 6]] (by decide) (by decide)).trans
      (by decide)⟩

/-- C4: `finish_speaking` changes the state tag only when its current value
is Speaking (CAS from Speaking to the mode-determined next state); if a
barge-in already set another state (such as Recording), the tag is left
unchanged, `SpeakingEnd` is still emitted, and `StateChange` is emitted only
when the swap succeeded. -/
theorem C4_finish_speaking_cas (st : Nat) (mode : VoiceMode) :
    (st ≠ state_to_u8 VoiceState.Speaking →
      finish_speaking st mode = (st, [VoiceEvent.SpeakingEnd])) ∧
    (st = state_to_u8 VoiceState.Speaking →
      finish_speaking st mode
        = (state_to_u8 (nextStateAfterSpeaking mode),
           [VoiceEvent.SpeakingEnd,
            VoiceEvent.StateChange (nextStateAfterSpeaking mode).display])) := by
  constructor
  · intro h
    simp [finish_speaking, h]
  · intro h
    simp [finish_speaking, h]

/-- Witness for C4: with the tag already moved to Recording by a barge-in,
`finish_speaking` leaves it Recording and emits only `SpeakingEnd`. -/
theorem C4_finish_speaking_cas_witness :
    finish_speaking (state_to_u8 VoiceState.Recording) VoiceMode.WakeWord
      = (state_to_u8 VoiceState.Recording, [VoiceEvent.SpeakingEnd]) :=
  (C4_finish_speaking_cas (state_to_u8 VoiceState.Recording) VoiceMode.WakeWord).1
    (by decide)

/-- C2: for every input string, joining the phrases returned by
`split_into_phrases` with single spaces yields a string whose word sequence
(splitting on any whitespace) equals the word sequence of the input. -/
theorem C2_phrase_splitter_roundtrip (text : List Char) :
    words (List.intercalate [' '] (split_into_phrases text)) = words text := by
  rw [words_intercalate]
  simp only [split_into_phrases]
  by_cases h1 : (rsTrim text).isEmpty = true
  · rw [if_pos h1, flattenWords_nil, words_eq_nil_of_trim h1]
  rw [if_neg h1]
  by_cases h2 : byteLen (rsTrim text) < 80
  · rw [if_pos h2, flattenWords_singleton, words_rsTrim]
  rw [if_neg h2]
  conv_rhs => rw [← words_rsTrim]
  have hinv := splitLoop_words (rsTrim text) [] []
  rw [flattenWords_nil, List.nil_append, List.nil_append] at hinv
  refine merge_stage_words _ _ ?_
  by_cases hrem : (rsTrim (splitLoop (rsTrim text) [] []).2).isEmpty = true
  · rw [if_pos hrem]
    have h0 : words (splitLoop (rsTrim text) [] []).2 = [] :=
      words_eq_nil_of_trim hrem
    rw [← hinv, h0, List.append_nil]
  · rw [if_neg hrem]
    by_cases h15 : byteLen (rsTrim (splitLoop (rsTrim text) [] []).2) < 15
    · rw [if_pos h15, pushOrMergeLast_words, words_rsTrim, hinv]
    · rw [if_neg h15, flattenWords_append, flattenWords_singleton, words_rsTrim,
        hinv]

/-- C9 counterexample: the empty input is shorter than 80 characters, yet
`split_into_phrases` returns the empty list, not a one-element list. -/
theorem C9_counterexample :
    split_into_phrases [] = [] ∧ (split_into_phrases []).length ≠ 1 := by
  decide

/-- C9 (amended): for every input whose trimmed text is non-empty and
occupies fewer than 80 UTF-8 bytes, `split_into_phrases` returns exactly
the one-element list holding the trimmed text. -/
theorem C9_short_text_single_phrase (text : List Char)
    (h1 : (rsTrim text).isEmpty = false) (h2 : byteLen (rsTrim text) < 80) :
    split_into_phrases text = [rsTrim text] := by
  simp only [split_into_phrases]
  rw [if_neg (by simp [h1]), if_pos h2]

/-- Witness for C9 (amended) at the concrete input "hello". -/
theorem C9_short_text_single_phrase_witness :
    ((rsTrim "hello".toList).isEmpty = false ∧
      byteLen (rsTrim "hello".toList) < 80) ∧
    split_into_phrases "hello".toList = [rsTrim "hello".toList] :=
  ⟨⟨by decide, by decide⟩,
    C9_short_text_single_phrase "hello".toList (by decide) (by decide)⟩

/-- C5: for every message history satisfying the tool-pairing ordering
invariant, `limit_message_history` keeps the leading system messages
intact, keeps at most the last 20 non-system messages, starts the kept
window on a non-tool message, and leaves no `role:"tool"` message without
a preceding assistant message containing its `tool_call_id`. -/
theorem C5_history_trimming (msgs : List Msg) (h : WellPaired msgs) :
    ((limit_message_history msgs).take
        (msgs.takeWhile fun m => m.role == some "system").length
      = msgs.takeWhile (fun m => m.role == some "system")) ∧
    ((limit_message_history msgs).length
      ≤ (msgs.takeWhile fun m => m.role == some "system").length
          + MAX_HISTORY_MESSAGES) ∧
    (∀ m0, ((limit_message_history msgs).drop
        (msgs.takeWhile fun m => m.role == some "system").length).head? = some m0 →
      isToolMsg m0 = false) ∧
    NoOrphanTool (limit_message_history msgs) := by
  have hSEL : (msgs.takeWhile fun m => m.role == some "system").length ≤ msgs.length :=
    (List.takeWhile_prefix _).length_le
  by_cases hlen : msgs.length ≤ MAX_HISTORY_MESSAGES
  · have hlim : limit_message_history msgs = msgs := by
      unfold limit_message_history
      rw [if_pos hlen]
    rw [hlim]
    refine ⟨take_length_takeWhile _ msgs, by omega, ?_, ?_⟩
    · intro m0 hm0
      rw [List.head?_drop] at hm0
      have hbound : (msgs.takeWhile fun m => m.role == some "system").length
          < msgs.length := by
        by_contra hb
        push_neg at hb
        rw [List.getElem?_eq_none (by omega)] at hm0
        exact Option.noConfusion hm0
      have hm0e : m0 = msgs.getD
          (msgs.takeWhile fun m => m.role == some "system").length default := by
        rw [List.getD_eq_getElem?_getD, hm0]
        rfl
      by_contra hbc
      have htool2 : isToolMsg (msgs.getD
          (msgs.takeWhile fun m => m.role == some "system").length default) = true := by
        rw [← hm0e]
        revert hbc
        cases isToolMsg m0 <;> simp
      obtain ⟨a, haj, hpair, _⟩ := h _ hbound htool2
      have hsys := getD_lt_takeWhile_length haj
      rw [pairsWith_false_of_sys _ hsys] at hpair
      exact Bool.noConfusion hpair
    · intro j hj htool
      obtain ⟨a, haj, hpair, _⟩ := h j hj htool
      exact ⟨a, haj, hpair⟩
  · have hlim : limit_message_history msgs
        = msgs.take (msgs.takeWhile fun m => m.role == some "system").length ++
          msgs.drop ((msgs.length - min MAX_HISTORY_MESSAGES
              (msgs.length - (msgs.takeWhile fun m => m.role == some "system").length)) +
            ((msgs.drop (msgs.length - min MAX_HISTORY_MESSAGES
              (msgs.length - (msgs.takeWhile fun m =>
                m.role == some "system").length))).takeWhile fun m =>
                  m.role == some "tool").length) := by
      simp only [limit_message_history]
      rw [if_neg hlen]
    have hadv : ((msgs.drop (msgs.length - min MAX_HISTORY_MESSAGES
        (msgs.length - (msgs.takeWhile fun m =>
          m.role == some "system").length))).takeWhile fun m =>
            m.role == some "tool").length
        ≤ msgs.length - (msgs.length - min MAX_HISTORY_MESSAGES
            (msgs.length - (msgs.takeWhile fun m => m.role == some "system").length)) := by
      have := (List.takeWhile_prefix (l := msgs.drop (msgs.length -
        min MAX_HISTORY_MESSAGES (msgs.length - (msgs.takeWhile fun m =>
          m.role == some "system").length)))
        (fun m => m.role == some "tool")).length_le
      simpa [List.length_drop] using this
    have hge : (msgs.takeWhile fun m => m.role == some "system").length
        ≤ (msgs.length - min MAX_HISTORY_MESSAGES
            (msgs.length - (msgs.takeWhile fun m => m.role == some "system").length)) +
          ((msgs.drop (msgs.length - min MAX_HISTORY_MESSAGES
            (msgs.length - (msgs.takeWhile fun m =>
              m.role == some "system").length))).takeWhile fun m =>
                m.role == some "tool").length := by
      omega
    have hnt : ∀ hlt : (msgs.length - min MAX_HISTORY_MESSAGES
        (msgs.length - (msgs.takeWhile fun m => m.role == some "system").length)) +
          ((msgs.drop (msgs.length - min MAX_HISTORY_MESSAGES
            (msgs.length - (msgs.takeWhile fun m =>
              m.role == some "system").length))).takeWhile fun m =>
                m.role == some "tool").length < msgs.length,
        isToolMsg (msgs.getD ((msgs.length - min MAX_HISTORY_MESSAGES
          (msgs.length - (msgs.takeWhile fun m => m.role == some "system").length)) +
          ((msgs.drop (msgs.length - min MAX_HISTORY_MESSAGES
            (msgs.length - (msgs.takeWhile fun m =>
              m.role == some "system").length))).takeWhile fun m =>
                m.role == some "tool").length) default) = false := by
      intro hlt
      have hbound : ((msgs.drop (msgs.length - min MAX_HISTORY_MESSAGES
          (msgs.length - (msgs.takeWhile fun m =>
            m.role == some "system").length))).takeWhile fun m =>
              m.role == some "tool").length
          < (msgs.drop (msgs.length - min MAX_HISTORY_MESSAGES
            (msgs.length - (msgs.takeWhile fun m =>
              m.role == some "system").length))).length := by
        rw [List.length_drop]
        omega
      have hres := after_takeWhile_not (fun m => m.role == some "tool")
        (msgs.drop (msgs.length - min MAX_HISTORY_MESSAGES
          (msgs.length - (msgs.takeWhile fun m => m.role == some "system").length)))
        hbound
      have heq : (msgs.drop (msgs.length - min MAX_HISTORY_MESSAGES
          (msgs.length - (msgs.takeWhile fun m =>
            m.role == some "system").length))).getD
          (((msgs.drop (msgs.length - min MAX_HISTORY_MESSAGES
            (msgs.length - (msgs.takeWhile fun m =>
              m.role == some "system").length))).takeWhile fun m =>
                m.role == some "tool").length) default
          = msgs.getD ((msgs.length - min MAX_HISTORY_MESSAGES
            (msgs.length - (msgs.takeWhile fun m => m.role == some "system").length)) +
            ((msgs.drop (msgs.length - min MAX_HISTORY_MESSAGES
              (msgs.length - (msgs.takeWhile fun m =>
                m.role == some "system").length))).takeWhile fun m =>
                  m.role == some "tool").length) default := by
        rw [List.getD_eq_getElem?_getD, List.getD_eq_getElem?_getD]
        congr 1
        rw [List.getElem?_drop]
      rw [heq] at hres
      exact hres
    obtain ⟨ha, hc, hd⟩ := trimmed_facts msgs h _ hge hnt
    rw [hlim]
    refine ⟨ha, ?_, hc, hd⟩
    rw [List.length_append, List.length_take, List.length_drop]
    omega



/-- Witness for C5 at a concrete 22-message history (1 system message
followed by 21 user messages). -/
theorem C5_history_trimming_witness :
    (limit_message_history ((⟨some "system", none, []⟩ : Msg) ::
        List.replicate 21 (⟨some "user", none, []⟩ : Msg))).take
      (((⟨some "system", none, []⟩ : Msg) ::
        List.replicate 21 (⟨some "user", none, []⟩ : Msg)).takeWhile fun m =>
          m.role == some "system").length
      = ((⟨some "system", none, []⟩ : Msg) ::
        List.replicate 21 (⟨some "user", none, []⟩ : Msg)).takeWhile
          (fun m => m.role == some "system") :=
  (C5_history_trimming _ (by unfold WellPaired; decide)).1

/-- C3 counterexample: the claim says `id` and `name` are first-write-wins,
but a second delta at the same index with non-empty `id` "b" and `name` "g"
leaves the slot with `id = "b"` (last write) and `name = "fg"` (appended),
not `id = "a"`, `name = "f"`. -/
theorem C3_first_write_counterexample :
    (accumulateStream [[⟨some 0, some "a", some "f", none⟩],
        [⟨some 0, some "b", some "g", none⟩]]).getD 0 emptyAccum
      = ⟨"b", "fg", ""⟩ ∧
    ¬ ((accumulateStream [[⟨some 0, some "a", some "f", none⟩],
        [⟨some 0, some "b", some "g", none⟩]]).getD 0 emptyAccum).id = "a" := by
  decide

/-- C3 (amended): for every sequence of streaming tool-call delta batches,
the slot at each index keeps its `arguments` as the ordered concatenation
of all non-empty `arguments` fragments written at that index (append-only);
`name` is likewise the ordered concatenation of the non-empty `name`
fragments; and `id` holds the last non-empty `id` written at that index
("" when none). -/
theorem C3_accumulator_invariant (batches : List (List ToolCallDelta)) (i : Nat) :
    (accumulateStream batches).getD i emptyAccum
      = ⟨lastIdAt batches.flatten i, nameConcatAt batches.flatten i,
         argsConcatAt batches.flatten i⟩ := by
  unfold accumulateStream
  rw [accumulateStream_flatten]
  exact accumulate_getD_spec batches.flatten i

/-- C6: `take_completed` consumes all slots (leaving the empty vector) and
returns exactly the slots with non-empty names; each returned call keeps
the slot's name, parses the accumulated `arguments` string (empty string
or parse failure giving the empty object), and keeps the slot's `id` when
non-empty, otherwise synthesizes one prefixed "call_". -/
theorem C6_take_completed_spec (parse : String → Option Json)
    (fresh : Nat → String) (calls : List AccumulatedToolCall) :
    (take_completed parse fresh calls).2 = [] ∧
    (take_completed parse fresh calls).1.length
      = (calls.filter fun tc => tc.name ≠ "").length ∧
    ∀ k, k < (calls.filter fun tc => tc.name ≠ "").length →
      ((take_completed parse fresh calls).1.getD k ⟨"", "", Json.null⟩).name
          = ((calls.filter fun tc => tc.name ≠ "").getD k default).name ∧
      ((take_completed parse fresh calls).1.getD k ⟨"", "", Json.null⟩).id
          = (if ((calls.filter fun tc => tc.name ≠ "").getD k default).id = ""
             then "call_" ++ fresh k
             else ((calls.filter fun tc => tc.name ≠ "").getD k default).id) ∧
      ((take_completed parse fresh calls).1.getD k ⟨"", "", Json.null⟩).arguments
          = (if ((calls.filter fun tc => tc.name ≠ "").getD k default).arguments = ""
             then Json.obj []
             else (parse ((calls.filter fun tc =>
                tc.name ≠ "").getD k default).arguments).getD (Json.obj [])) := by
  refine ⟨rfl, by simp [take_completed], ?_⟩
  intro k hk
  have hk2 : k < ((calls.filter fun tc => tc.name ≠ "").mapIdx fun kk tc =>
      ({ id := if tc.id = "" then "call_" ++ fresh kk else tc.id
         name := tc.name
         arguments :=
           if tc.arguments = "" then Json.obj []
           else
             match parse tc.arguments with
             | some v => v
             | none => Json.obj [] } : CompletedToolCall)).length := by
    simpa using hk
  have hcall : (take_completed parse fresh calls).1.getD k ⟨"", "", Json.null⟩
      = { id := if ((calls.filter fun tc => tc.name ≠ "").get ⟨k, hk⟩).id = ""
                then "call_" ++ fresh k
                else ((calls.filter fun tc => tc.name ≠ "").get ⟨k, hk⟩).id
          name := ((calls.filter fun tc => tc.name ≠ "").get ⟨k, hk⟩).name
          arguments :=
            if ((calls.filter fun tc => tc.name ≠ "").get ⟨k, hk⟩).arguments = ""
            then Json.obj []
            else (parse ((calls.filter fun tc =>
                tc.name ≠ "").get ⟨k, hk⟩).arguments).getD (Json.obj []) } := by
    simp only [take_completed]
    rw [List.getD_eq_getElem _ _ hk2, List.getElem_mapIdx]
    rw [show ((calls.filter fun tc => tc.name ≠ ""))[k] =
      ((calls.filter fun tc => tc.name ≠ "").get ⟨k, hk⟩) from rfl]
    congr 1
    by_cases ha : ((calls.filter fun tc => tc.name ≠ "").get ⟨k, hk⟩).arguments = ""
    · rw [if_pos ha, if_pos ha]
    · rw [if_neg ha, if_neg ha]
      cases parse ((calls.filter fun tc => tc.name ≠ "").get ⟨k, hk⟩).arguments <;> rfl
  have hgd : (calls.filter fun tc => tc.name ≠ "").getD k default
      = (calls.filter fun tc => tc.name ≠ "").get ⟨k, hk⟩ := by
    rw [List.getD_eq_getElem _ _ hk]
    rfl
  rw [hcall, hgd]
  exact ⟨rfl, rfl, rfl⟩

/-- Witness for C6 at a concrete slot list: one slot with empty id and
name "f", whose id gets synthesized, evaluated at position 0. -/
theorem C6_take_completed_spec_witness :
    ((take_completed (fun _ => none) (fun _ => "u")
        [⟨"", "f", "x"⟩]).1.getD 0 ⟨"", "", Json.null⟩).name
        = ((([⟨"", "f", "x"⟩] : List AccumulatedToolCall).filter
            fun tc => tc.name ≠ "").getD 0 default).name ∧
    ((take_completed (fun _ => none) (fun _ => "u")
        [⟨"", "f", "x"⟩]).1.getD 0 ⟨"", "", Json.null⟩).id
        = (if ((([⟨"", "f", "x"⟩] : List AccumulatedToolCall).filter
              fun tc => tc.name ≠ "").getD 0 default).id = ""
           then "call_" ++ "u"
           else ((([⟨"", "f", "x"⟩] : List AccumulatedToolCall).filter
              fun tc => tc.name ≠ "").getD 0 default).id) ∧
    ((take_completed (fun _ => none) (fun _ => "u")
        [⟨"", "f", "x"⟩]).1.getD 0 ⟨"", "", Json.null⟩).arguments
        = (if ((([⟨"", "f", "x"⟩] : List AccumulatedToolCall).filter
              fun tc => tc.name ≠ "").getD 0 default).arguments = ""
           then Json.obj []
           else ((fun _ => (none : Option Json))
              ((([⟨"", "f", "x"⟩] : List AccumulatedToolCall).filter
                fun tc => tc.name ≠ "").getD 0 default).arguments).getD
              (Json.obj [])) :=
  (C6_take_completed_spec (fun _ => none) (fun _ => "u") [⟨"", "f", "x"⟩]).2.2 0
    (by decide)

/-- C8: for a 129-byte payload and for a 70000-byte payload, writing a frame
with the masked client framing (`ws_send_frame`, exercising the 126/16-bit
and 127/64-bit length encodings respectively) and reading the produced bytes
back with `ws_read_frame` yields a frame whose payload equals the original
payload exactly. -/
theorem C8_ws_roundtrip (decode : List Nat → String) (payload : List Nat)
    (h : payload.length = 129 ∨ payload.length = 70000) :
    ws_read_frame decode (ws_send_frame 2 payload)
      = some (WsFrame.Binary payload, []) := by
  rcases h with h | h
  · exact ws_frame_roundtrip_mid decode payload (by omega) (by omega)
  · exact ws_frame_roundtrip_large decode payload (by omega) (by omega)

/-- Witness for C8 at a concrete 129-byte payload. -/
theorem C8_ws_roundtrip_witness :
    ((List.replicate 129 (7 : Nat)).length = 129 ∨
      (List.replicate 129 (7 : Nat)).length = 70000) ∧
    ws_read_frame (fun _ => "") (ws_send_frame 2 (List.replicate 129 7))
      = some (WsFrame.Binary (List.replicate 129 7), []) :=
  ⟨Or.inl (by simp),
    C8_ws_roundtrip (fun _ => "") (List.replicate 129 7) (Or.inl (by simp))⟩

set_option maxRecDepth 1000000 in
/-- C7: the inline SHA-256 implementation followed by uppercase-hex encoding
satisfies the standard test vectors for the empty input and for "abc". -/
theorem C7_sha256_test_vectors :
    hex_encode_upper (sha256 [])
      = "E3B0C44298FC1C149AFBF4C8996FB92427AE41E4649B934CA495991B7852B855" ∧
    hex_encode_upper (sha256 [0x61, 0x62, 0x63])
      = "BA7816BF8F01CFEA414140DE5DAE2223B00361A396177A9CB410FF61F20015AD" := by
  constructor <;> decide

/-- C10: for every threshold greater than 0, `process_frame` on an empty
sample slice is total (`compute_energy` guards the division and returns 0
for an empty slice) and classifies the frame as silence, returning false. -/
theorem C10_vad_empty_frame (v : VadProcessor) (now : ℚ)
    (h : 0 < v.threshold) :
    compute_energy [] = 0 ∧ (v.process_frame now []).1 = false := by
  refine ⟨rfl, ?_⟩
  simp only [VadProcessor.process_frame, VadProcessor.update_state, compute_energy]
  simp [not_lt.mpr (le_of_lt h)]

/-- Witness for C10 at a concrete processor with the default 0.01
threshold. -/
theorem C10_vad_empty_frame_witness :
    compute_energy [] = 0 ∧
    ((VadProcessor.new (1 / 100)).process_frame 0 []).1 = false :=
  C10_vad_empty_frame (VadProcessor.new (1 / 100)) 0 (by norm_num [VadProcessor.new])

end VoiceMirror
